import Mathlib

/-!
Verification of the finite dimensional graded commutative algebra implemented in
src/sage/algebras/finite_gca.py (class FiniteGCAlgebra).

The embedding below models basis indices as lists of natural numbers (exponent
vectors, one entry per generator), the generator degrees as a list of natural
numbers, and the algebra elements produced by the basis product as either the
additive zero or an integer multiple of a single basis monomial (the code's
product_on_basis only ever returns such elements).  Machine arithmetic plays no
role: all quantities involved are unbounded Python integers, modelled by Nat/Int.
-/

namespace FiniteGCA

/-- Grading of an exponent vector: the weighted sum of the entries by the
generator degrees.  Mirrors WeightedIntegerVectors.grading, used by the source
via self._weighted_vectors.grading, i.e. sum of w[i] * degrees[i]. -/
def grading (degrees w : List Nat) : Nat :=
  (List.zipWith (fun a b => a * b) w degrees).sum

/-- Validity predicate of FiniteGCAlgebra._valid_index (finite_gca.py lines
219-235): `not any(i > 1 for i, d in zip(w, self._degrees) if is_odd(d))`,
i.e. no exponent greater than 1 in an odd degree. -/
def valid_index (degrees w : List Nat) : Bool :=
  ! (List.zip w degrees).any (fun p => decide (p.2 % 2 = 1 ∧ 1 < p.1))

/-- The sign exponent computed by the double loop of
FiniteGCAlgebra.product_on_basis (finite_gca.py lines 337-348): iterate p over
generator positions from highest to lowest; skip p when degrees[p] is even or
w1[p] = 0; for each remaining p count the positions q < p (the inner loop breaks
at q = p) with w2[q] nonzero and degrees[q] odd.  Basis indices always have
length equal to the number of generators, which getD reflects faithfully. -/
def signCount (degrees w1 w2 : List Nat) : Nat :=
  ((List.range degrees.length).reverse.map (fun p =>
    if (degrees.getD p 0) % 2 = 1 ∧ w1.getD p 0 ≠ 0 then
      ((List.range p).filter (fun q =>
        decide ((degrees.getD q 0) % 2 = 1 ∧ w2.getD q 0 ≠ 0))).length
    else 0)).sum

/-- An element of the algebra as produced by product_on_basis: either the
additive zero element, or a scalar multiple `term c w` of the single basis
monomial with index `w`.  The code only ever produces coefficients of the form
(-1)^c here, so no zero coefficient ever appears in a `term`. -/
inductive GCAElem where
  | zero : GCAElem
  | term : Int → List Nat → GCAElem
deriving DecidableEq

/-- FiniteGCAlgebra.product_on_basis (finite_gca.py lines 268-349):
degree truncation (`if deg_tot > self._max_deg: return self.zero()`),
entrywise index addition (`w_tot = [sum(w) for w in zip(w1, w2)]`),
re-validation (`if not self._valid_index(w_tot): return self.zero()`), and the
signed monomial `(-1)**c * self.monomial(w_tot)`. -/
def product_on_basis (degrees : List Nat) (max_deg : Nat) (w1 w2 : List Nat) :
    GCAElem :=
  if max_deg < grading degrees w1 + grading degrees w2 then GCAElem.zero
  else if valid_index degrees (List.zipWith (fun a b => a + b) w1 w2) = false then
    GCAElem.zero
  else GCAElem.term ((-1 : Int) ^ signCount degrees w1 w2)
    (List.zipWith (fun a b => a + b) w1 w2)

/-- FiniteGCAlgebra.degree_on_basis (finite_gca.py lines 351-376):
`return self._weighted_vectors.grading(i)`. -/
def degree_on_basis (degrees i : List Nat) : Nat :=
  grading degrees i

/-- FiniteGCAlgebra.one_basis (finite_gca.py lines 468-485): the all zero
exponent vector of length n. -/
def one_basis (degrees : List Nat) : List Nat :=
  List.replicate degrees.length 0

/-- The step used to enumerate the basis slices: `step = gcd(degrees)`
(finite_gca.py line 208). -/
def stepOf (degrees : List Nat) : Nat :=
  degrees.foldl Nat.gcd 0

/-- Python `range(0, stop, step)` for step > 0: the multiples of step that are
strictly below stop. -/
def pyRange (stop step : Nat) : List Nat :=
  (List.range ((stop + step - 1) / step)).map (fun i => i * step)

/-- Membership in the basis index set built in FiniteGCAlgebra.__init__
(finite_gca.py lines 208-215): the universe is the disjoint union of the
weighted integer vector slices of grading k for `k in range(0, max_degree,
step)` (vectors of length n with weighted sum exactly k), filtered by the
ConditionSet predicate _valid_index. -/
def inBasis (degrees : List Nat) (max_deg : Nat) (w : List Nat) : Bool :=
  decide (w.length = degrees.length)
    && (pyRange max_deg (stepOf degrees)).any (fun k => grading degrees w == k)
    && valid_index degrees w

/-- The exponent vectors of the generators, as built by FiniteGCAlgebra.gens
(finite_gca.py lines 487-505): the k-th one is the all zero vector of length n
with a 1 written at position k.  The source wraps each index in
self.monomial(...); that wrapping is the free module collaborator, so the
embedding works with the indices themselves. -/
def gens (degrees : List Nat) : List (List Nat) :=
  (List.range degrees.length).map (fun k => (List.replicate degrees.length 0).set k 1)

/-- Error raised by Python list indexing when the (possibly negative) index is
out of range. -/
inductive PyError where
  | indexOutOfRange : PyError
deriving DecidableEq

/-- Python list subscription `xs[i]` for an integer i: a negative index is
first shifted by the length; the result must land in [0, len), otherwise an
IndexError is raised. -/
def pyGetItem (xs : List (List Nat)) (i : Int) : Except PyError (List Nat) :=
  let j : Int := if i < 0 then i + xs.length else i
  if 0 ≤ j ∧ j < (xs.length : Int) then Except.ok (xs.getD j.toNat [])
  else Except.error PyError.indexOutOfRange

/-- FiniteGCAlgebra.gen (finite_gca.py lines 507-523):
`return self.gens()[i]`, i.e. Python list indexing into the generator list. -/
def gen (degrees : List Nat) (i : Int) : Except PyError (List Nat) :=
  pyGetItem (gens degrees) i

/-- Scalar multiple of an element, as performed by the free module collaborator
when product_on_basis returns `(-1)**c * self.monomial(w_tot)` and when the
generic product extends product_on_basis linearly.  Only unit scalars (-1)^c
ever reach this operation in the modelled code paths. -/
def intSmul (a : Int) : GCAElem → GCAElem
  | GCAElem.zero => GCAElem.zero
  | GCAElem.term c w => GCAElem.term (a * c) w

/-- Linear extension of the product on the left: multiply an element that is a
scalar multiple of a single monomial (or zero) by a basis index on the right. -/
def elemMulBasis (degrees : List Nat) (max_deg : Nat) :
    GCAElem → List Nat → GCAElem
  | GCAElem.zero, _ => GCAElem.zero
  | GCAElem.term c w, w3 => intSmul c (product_on_basis degrees max_deg w w3)

/-- Linear extension of the product on the right: multiply a basis index on the
left by an element that is a scalar multiple of a single monomial (or zero). -/
def basisMulElem (degrees : List Nat) (max_deg : Nat) :
    List Nat → GCAElem → GCAElem
  | _, GCAElem.zero => GCAElem.zero
  | w1, GCAElem.term c w => intSmul c (product_on_basis degrees max_deg w1 w)

/-- Indicator (0 or 1) of position p carrying an odd degree generator that is
present (nonzero exponent) in w.  Proof-side reformulation of the loop filters
of signCount. -/
def oddInd (degrees w : List Nat) (p : Nat) : Nat :=
  if (degrees.getD p 0) % 2 = 1 ∧ w.getD p 0 ≠ 0 then 1 else 0

/-- Stated from the claim's words (claim C3): the number of pairs (p, q) of
generator positions with q < p, w1[p] > 0, degree p odd, w2[q] > 0 and
degree q odd.  To be compared with the source's loop count signCount. -/
def pairCountSpec (degrees w1 w2 : List Nat) : Nat :=
  ((Finset.range degrees.length ×ˢ Finset.range degrees.length).filter
    (fun pq => pq.2 < pq.1 ∧ (0 < w1.getD pq.1 0 ∧ (degrees.getD pq.1 0) % 2 = 1)
      ∧ (0 < w2.getD pq.2 0 ∧ (degrees.getD pq.2 0) % 2 = 1))).card

/-- Errors raised at construction time by FiniteGCAlgebra.__classcall_private__
and FiniteGCAlgebra.__init__ (finite_gca.py lines 134-217).  rangeStepZero is
the ValueError raised by Python when `range(0, max_degree, step)` is evaluated
with step = 0 (lines 208-210, when gcd(degrees) = 0, i.e. every degree is 0);
the outermost iterable of the generator expression passed to
DisjointUnionEnumeratedSets is evaluated eagerly at that line. -/
inductive ConstructionError where
  | maxDegreeMissing : ConstructionError
  | missingNamesAndDegrees : ConstructionError
  | maxDegreeTooSmall : ConstructionError
  | maxOfEmpty : ConstructionError
  | rangeStepZero : ConstructionError
deriving DecidableEq

/-- The configuration stored by a successfully constructed algebra. -/
structure GCAConfig where
  names : List String
  degrees : List Int
  max_degree : Int
deriving DecidableEq

/-- FiniteGCAlgebra.__classcall_private__ (finite_gca.py lines 134-178):
normalize names and degrees.  max_degree unspecified is a TypeError; names and
degrees both unspecified is a ValueError; omitted names default to x0, x1, ...;
omitted degrees default to all ones.  Degrees are modelled as integers because
nothing in the source constrains them at this point.  The variant in which
names is a single comma separated string is normalization glue and is not
modelled; names arrive as a list. -/
def classcall_private (names : Option (List String)) (degrees : Option (List Int))
    (max_degree : Option Int) :
    Except ConstructionError (List String × List Int) :=
  match max_degree with
  | none => Except.error ConstructionError.maxDegreeMissing
  | some _ =>
    match names, degrees with
    | none, none => Except.error ConstructionError.missingNamesAndDegrees
    | none, some ds =>
        Except.ok ((List.range ds.length).map (fun i => "x" ++ toString i), ds)
    | some ns, none => Except.ok (ns, List.replicate ns.length 1)
    | some ns, some ds => Except.ok (ns, ds)

/-- Python max over a list; raises (none) on an empty list. -/
def listMax : List Int → Option Int
  | [] => none
  | x :: xs => some (xs.foldl max x)

/-- sage.arith.misc.gcd over a sequence of integers, as used for
`step = gcd(degrees)` at finite_gca.py line 208: the non-negative gcd of the
absolute values; 0 exactly when every entry is 0. -/
def gcdList (xs : List Int) : Nat :=
  xs.foldl (fun g x => Nat.gcd g x.natAbs) 0

/-- Construction of the algebra: __classcall_private__ followed by __init__ up
to the construction of the basis universe (finite_gca.py lines 195-210).  In
this typed embedding max_degree is an integer by type, so the source's
`max_degree not in ZZ` TypeError cannot fire.  The checks, in source order:
`max_degree < max(degrees)` raises (with max() itself raising on an empty
degree tuple); then `step = gcd(degrees)` is computed and
`range(0, max_degree, step)` is evaluated eagerly at line 209-210, raising
ValueError when step = 0, i.e. when every degree is 0.  No comparison of the
lengths of names and degrees is performed anywhere in the source, and no
degree-positivity check is: the only construction-time call touching the
degrees beyond these lines is WeightedIntegerVectors(degrees) at line 205,
which lies outside src/ and whose spec contract (the WeightedIndexSpace
component) specifies no construction-time validation, so it is modelled as
succeeding. -/
def GCA_construct (names : Option (List String)) (degrees : Option (List Int))
    (max_degree : Option Int) : Except ConstructionError GCAConfig :=
  match max_degree with
  | none => Except.error ConstructionError.maxDegreeMissing
  | some m =>
    match classcall_private names degrees (some m) with
    | Except.error e => Except.error e
    | Except.ok (ns, ds) =>
      match listMax ds with
      | none => Except.error ConstructionError.maxOfEmpty
      | some mx =>
        if m < mx then Except.error ConstructionError.maxDegreeTooSmall
        else if gcdList ds = 0 then Except.error ConstructionError.rangeStepZero
        else Except.ok (GCAConfig.mk ns ds m)

section ListLemmas

theorem getD_zipWith_add (w1 w2 : List Nat) (h : w1.length = w2.length) (p : Nat) :
    (List.zipWith (fun a b => a + b) w1 w2).getD p 0 = w1.getD p 0 + w2.getD p 0 := by
  induction w1 generalizing w2 p with
  | nil =>
    cases w2 with
    | nil => simp
    | cons y ys => simp at h
  | cons x xs ih =>
    cases w2 with
    | nil => simp at h
    | cons y ys =>
      cases p with
      | zero => simp
      | succ q =>
        simp only [List.zipWith_cons_cons, List.getD_cons_succ]
        exact ih ys (by simpa using h) q

theorem zipWith_add_comm (w1 w2 : List Nat) :
    List.zipWith (fun a b => a + b) w1 w2 = List.zipWith (fun a b => a + b) w2 w1 := by
  induction w1 generalizing w2 with
  | nil => cases w2 <;> simp
  | cons x xs ih =>
    cases w2 with
    | nil => simp
    | cons y ys => simp [Nat.add_comm, ih ys]

theorem zipWith_add_assoc (w1 w2 w3 : List Nat) :
    List.zipWith (fun a b => a + b) (List.zipWith (fun a b => a + b) w1 w2) w3
      = List.zipWith (fun a b => a + b) w1 (List.zipWith (fun a b => a + b) w2 w3) := by
  induction w1 generalizing w2 w3 with
  | nil => simp
  | cons x xs ih =>
    cases w2 with
    | nil => simp
    | cons y ys =>
      cases w3 with
      | nil => simp
      | cons z zs => simp [Nat.add_assoc, ih ys zs]

theorem length_zipWith_add (w1 w2 : List Nat) (n : Nat)
    (h1 : w1.length = n) (h2 : w2.length = n) :
    (List.zipWith (fun a b => a + b) w1 w2).length = n := by
  rw [List.length_zipWith, h1, h2, Nat.min_self]

theorem zipWith_add_replicate_zero (w : List Nat) (n : Nat) (h : w.length = n) :
    List.zipWith (fun a b => a + b) (List.replicate n 0) w = w := by
  induction w generalizing n with
  | nil => simp
  | cons a as ih =>
    cases n with
    | zero => simp at h
    | succ m =>
      simp only [List.replicate_succ, List.zipWith_cons_cons, Nat.zero_add]
      rw [ih m (by simpa using h)]

theorem getD_replicate_zero (n p : Nat) :
    (List.replicate n (0 : Nat)).getD p 0 = 0 := by
  induction n generalizing p with
  | zero => simp
  | succ m ih =>
    cases p with
    | zero => simp [List.replicate_succ]
    | succ q => simp only [List.replicate_succ, List.getD_cons_succ]; exact ih q

end ListLemmas

section GradingLemmas

theorem grading_nil_left (degrees : List Nat) : grading degrees [] = 0 := by
  simp [grading]

theorem grading_cons (d a : Nat) (ds as : List Nat) :
    grading (d :: ds) (a :: as) = a * d + grading ds as := by
  simp [grading]

theorem grading_eq_sum (degrees w : List Nat) (h : w.length = degrees.length) :
    grading degrees w
      = ∑ p ∈ Finset.range degrees.length, w.getD p 0 * degrees.getD p 0 := by
  induction degrees generalizing w with
  | nil =>
    cases w with
    | nil => simp [grading]
    | cons a as => simp at h
  | cons d ds ih =>
    cases w with
    | nil => simp at h
    | cons a as =>
      rw [grading_cons, List.length_cons, Finset.sum_range_succ']
      simp only [List.getD_cons_succ, List.getD_cons_zero]
      rw [← ih as (by simpa using h)]
      omega

theorem grading_zipWith_add (degrees w1 w2 : List Nat) (h : w1.length = w2.length) :
    grading degrees (List.zipWith (fun a b => a + b) w1 w2)
      = grading degrees w1 + grading degrees w2 := by
  induction degrees generalizing w1 w2 with
  | nil =>
    cases w1 <;> cases w2 <;> simp [grading]
  | cons d ds ih =>
    cases w1 with
    | nil =>
      cases w2 with
      | nil => simp [grading]
      | cons b bs => simp at h
    | cons a as =>
      cases w2 with
      | nil => simp at h
      | cons b bs =>
        simp only [List.zipWith_cons_cons, grading_cons]
        rw [ih as bs (by simpa using h), Nat.add_mul]
        omega

theorem grading_replicate_zero (degrees : List Nat) (n : Nat) :
    grading degrees (List.replicate n 0) = 0 := by
  induction n generalizing degrees with
  | zero => simp [grading]
  | succ m ih =>
    cases degrees with
    | nil => simp [grading]
    | cons d ds =>
      rw [List.replicate_succ, grading_cons, ih ds]
      omega

theorem valid_index_iff_getD (degrees w : List Nat) :
    valid_index degrees w = true
      ↔ ∀ p, (degrees.getD p 0) % 2 = 1 → w.getD p 0 ≤ 1 := by
  induction w generalizing degrees with
  | nil =>
    simp only [valid_index, List.zip_nil_left, List.any_nil, Bool.not_false, true_iff]
    intro p _
    simp
  | cons a as ih =>
    cases degrees with
    | nil =>
      simp only [valid_index, List.zip_nil_right, List.any_nil, Bool.not_false, true_iff]
      intro p hp
      simp at hp
    | cons d ds =>
      simp only [valid_index, List.zip_cons_cons, List.any_cons, Bool.not_or,
        Bool.and_eq_true, Bool.not_eq_true', decide_eq_false_iff_not] at *
      constructor
      · rintro ⟨hhead, htail⟩ p
        cases p with
        | zero =>
          intro hd
          simp only [List.getD_cons_zero] at *
          omega
        | succ q =>
          simp only [List.getD_cons_succ]
          exact (ih ds).mp htail q
      · intro hall
        refine ⟨?h1, ?h2⟩
        · have := hall 0
          simp only [List.getD_cons_zero] at this
          omega
        · refine (ih ds).mpr (fun q hq => ?h3)
          have := hall (q + 1)
          simp only [List.getD_cons_succ] at this
          exact this hq

theorem valid_index_false_iff (degrees w : List Nat) :
    valid_index degrees w = false
      ↔ ∃ p, (degrees.getD p 0) % 2 = 1 ∧ 1 < w.getD p 0 := by
  rw [← Bool.not_eq_true, valid_index_iff_getD]
  push_neg
  constructor
  · rintro ⟨p, hp, hw⟩
    exact ⟨p, hp, hw⟩
  · rintro ⟨p, hp, hw⟩
    exact ⟨p, hp, hw⟩

theorem valid_index_mono (degrees w w' : List Nat)
    (hle : ∀ p, w.getD p 0 ≤ w'.getD p 0)
    (h : valid_index degrees w' = true) : valid_index degrees w = true := by
  rw [valid_index_iff_getD] at *
  intro p hp
  exact le_trans (hle p) (h p hp)

end GradingLemmas

section SignCountLemmas

theorem sum_map_range (f : Nat → Nat) (n : Nat) :
    ((List.range n).map f).sum = ∑ p ∈ Finset.range n, f p := by
  induction n with
  | zero => simp
  | succ m ih =>
    rw [List.range_succ, List.map_append, List.sum_append, Finset.sum_range_succ, ih]
    simp

theorem length_filter_range (P : Nat → Prop) [DecidablePred P] (p : Nat) :
    ((List.range p).filter (fun q => decide (P q))).length
      = ∑ q ∈ Finset.range p, (if P q then 1 else 0) := by
  induction p with
  | zero => simp
  | succ m ih =>
    rw [List.range_succ, List.filter_append, List.length_append,
      Finset.sum_range_succ, ih]
    by_cases h : P m <;> simp [h]

theorem signCount_eq (degrees w1 w2 : List Nat) :
    signCount degrees w1 w2
      = ∑ p ∈ Finset.range degrees.length, ∑ q ∈ Finset.range p,
          oddInd degrees w1 p * oddInd degrees w2 q := by
  unfold signCount
  rw [List.map_reverse, List.sum_reverse, sum_map_range]
  refine Finset.sum_congr rfl (fun p _ => ?hterm)
  by_cases h : (degrees.getD p 0) % 2 = 1 ∧ w1.getD p 0 ≠ 0
  · rw [if_pos h,
      length_filter_range (fun q => (degrees.getD q 0) % 2 = 1 ∧ w2.getD q 0 ≠ 0) p]
    refine Finset.sum_congr rfl (fun q _ => ?hinner)
    unfold oddInd
    rw [if_pos h, Nat.one_mul]
  · rw [if_neg h]
    refine (Finset.sum_eq_zero (fun q _ => ?hz)).symm
    unfold oddInd
    rw [if_neg h, Nat.zero_mul]

theorem sum_pairs_symm (a b : Nat → Nat) (n : Nat) :
    (∑ p ∈ Finset.range n, ∑ q ∈ Finset.range p, (a p * b q + b p * a q))
      + ∑ p ∈ Finset.range n, a p * b p
    = (∑ p ∈ Finset.range n, a p) * (∑ p ∈ Finset.range n, b p) := by
  induction n with
  | zero => simp
  | succ m ih =>
    rw [Finset.sum_range_succ (fun p => ∑ q ∈ Finset.range p, (a p * b q + b p * a q)) m,
      Finset.sum_range_succ (fun p => a p * b p) m,
      Finset.sum_range_succ a m, Finset.sum_range_succ b m]
    have hsplit : ∑ q ∈ Finset.range m, (a m * b q + b m * a q)
        = a m * ∑ q ∈ Finset.range m, b q + b m * ∑ q ∈ Finset.range m, a q := by
      rw [Finset.sum_add_distrib, Finset.mul_sum, Finset.mul_sum]
    rw [hsplit]
    zify at ih ⊢
    linear_combination ih

theorem sum_range_mod_congr (f g : Nat → Nat) (n m : Nat)
    (h : ∀ p, p < n → f p % m = g p % m) :
    (∑ p ∈ Finset.range n, f p) % m = (∑ p ∈ Finset.range n, g p) % m := by
  induction n with
  | zero => rfl
  | succ k ih =>
    rw [Finset.sum_range_succ, Finset.sum_range_succ,
      Nat.add_mod (∑ p ∈ Finset.range k, f p) (f k),
      Nat.add_mod (∑ p ∈ Finset.range k, g p) (g k),
      ih (fun p hp => h p (by omega)), h k (by omega)]

theorem grading_mod_two (degrees w : List Nat) (h : w.length = degrees.length)
    (hv : valid_index degrees w = true) :
    grading degrees w % 2
      = (∑ p ∈ Finset.range degrees.length, oddInd degrees w p) % 2 := by
  rw [grading_eq_sum degrees w h]
  refine sum_range_mod_congr _ _ _ 2 (fun p _ => ?hterm)
  have hle := (valid_index_iff_getD degrees w).mp hv p
  unfold oddInd
  by_cases hod : (degrees.getD p 0) % 2 = 1
  · have hw := hle hod
    have hcases : w.getD p 0 = 0 ∨ w.getD p 0 = 1 := by omega
    rcases hcases with h0 | h1
    · rw [h0, Nat.zero_mul, if_neg (fun hc => hc.2 rfl)]
    · rw [h1, Nat.one_mul, if_pos ⟨hod, by omega⟩]
      omega
  · have heven : (degrees.getD p 0) % 2 = 0 := by omega
    rw [if_neg (fun hc => hod hc.1), Nat.mul_mod, heven, Nat.mul_zero]

end SignCountLemmas

section SignParityLemmas

theorem neg_one_pow_congr (a b : Nat) (h : a % 2 = b % 2) :
    ((-1 : Int)) ^ a = (-1 : Int) ^ b := by
  rw [neg_one_pow_eq_pow_mod_two, h, ← neg_one_pow_eq_pow_mod_two]

theorem sign_parity (degrees w1 w2 : List Nat)
    (h1 : w1.length = degrees.length) (h2 : w2.length = degrees.length)
    (hv1 : valid_index degrees w1 = true) (hv2 : valid_index degrees w2 = true)
    (hvt : valid_index degrees (List.zipWith (fun a b => a + b) w1 w2) = true) :
    signCount degrees w1 w2 % 2
      = (grading degrees w1 * grading degrees w2 + signCount degrees w2 w1) % 2 := by
  have hlen12 : w1.length = w2.length := by omega
  have key := sum_pairs_symm (oddInd degrees w1) (oddInd degrees w2) degrees.length
  have hdiag : ∑ p ∈ Finset.range degrees.length,
      oddInd degrees w1 p * oddInd degrees w2 p = 0 := by
    refine Finset.sum_eq_zero (fun p _ => ?hz)
    by_cases hod : (degrees.getD p 0) % 2 = 1
    · have htot := (valid_index_iff_getD _ _).mp hvt p hod
      rw [getD_zipWith_add w1 w2 hlen12 p] at htot
      unfold oddInd
      split_ifs <;> omega
    · unfold oddInd
      rw [if_neg (fun hc => hod hc.1), Nat.zero_mul]
  have hsplit : ∑ p ∈ Finset.range degrees.length, ∑ q ∈ Finset.range p,
        (oddInd degrees w1 p * oddInd degrees w2 q
          + oddInd degrees w2 p * oddInd degrees w1 q)
      = signCount degrees w1 w2 + signCount degrees w2 w1 := by
    rw [signCount_eq degrees w1 w2, signCount_eq degrees w2 w1,
      ← Finset.sum_add_distrib]
    refine Finset.sum_congr rfl (fun p _ => ?hs)
    rw [← Finset.sum_add_distrib]
  rw [hsplit, hdiag] at key
  have hg1 := grading_mod_two degrees w1 h1 hv1
  have hg2 := grading_mod_two degrees w2 h2 hv2
  have hmul : (grading degrees w1 * grading degrees w2) % 2
      = ((∑ p ∈ Finset.range degrees.length, oddInd degrees w1 p)
          * (∑ p ∈ Finset.range degrees.length, oddInd degrees w2 p)) % 2 := by
    rw [Nat.mul_mod, hg1, hg2, ← Nat.mul_mod]
  omega

theorem oddInd_zipWith_add (degrees w1 w2 : List Nat) (hlen : w1.length = w2.length)
    (p : Nat)
    (hdisj : ¬((degrees.getD p 0) % 2 = 1 ∧ w1.getD p 0 ≠ 0 ∧ w2.getD p 0 ≠ 0)) :
    oddInd degrees (List.zipWith (fun a b => a + b) w1 w2) p
      = oddInd degrees w1 p + oddInd degrees w2 p := by
  unfold oddInd
  rw [getD_zipWith_add w1 w2 hlen p]
  split_ifs <;> omega

theorem signCount_add_left (degrees w1 w2 w3 : List Nat)
    (hlen : w1.length = w2.length)
    (hdisj : ∀ p, ¬((degrees.getD p 0) % 2 = 1 ∧ w1.getD p 0 ≠ 0 ∧ w2.getD p 0 ≠ 0)) :
    signCount degrees (List.zipWith (fun a b => a + b) w1 w2) w3
      = signCount degrees w1 w3 + signCount degrees w2 w3 := by
  rw [signCount_eq, signCount_eq, signCount_eq, ← Finset.sum_add_distrib]
  refine Finset.sum_congr rfl (fun p _ => ?houter)
  rw [← Finset.sum_add_distrib]
  refine Finset.sum_congr rfl (fun q _ => ?hinner)
  rw [oddInd_zipWith_add degrees w1 w2 hlen p (hdisj p), Nat.add_mul]

theorem signCount_add_right (degrees w1 w2 w3 : List Nat)
    (hlen : w2.length = w3.length)
    (hdisj : ∀ q, ¬((degrees.getD q 0) % 2 = 1 ∧ w2.getD q 0 ≠ 0 ∧ w3.getD q 0 ≠ 0)) :
    signCount degrees w1 (List.zipWith (fun a b => a + b) w2 w3)
      = signCount degrees w1 w2 + signCount degrees w1 w3 := by
  rw [signCount_eq, signCount_eq, signCount_eq, ← Finset.sum_add_distrib]
  refine Finset.sum_congr rfl (fun p _ => ?houter)
  rw [← Finset.sum_add_distrib]
  refine Finset.sum_congr rfl (fun q _ => ?hinner)
  rw [oddInd_zipWith_add degrees w2 w3 hlen q (hdisj q), Nat.mul_add]

theorem inBasis_elim (degrees : List Nat) (max_deg : Nat) (w : List Nat)
    (h : inBasis degrees max_deg w = true) :
    w.length = degrees.length ∧ valid_index degrees w = true := by
  unfold inBasis at h
  simp only [Bool.and_eq_true, decide_eq_true_eq] at h
  exact ⟨h.1.1, h.2⟩

end SignParityLemmas

section PairCountLemmas

theorem inner_range_eq (n p : Nat) (hp : p ≤ n) (C : Nat → Prop) [DecidablePred C] :
    (∑ q ∈ Finset.range n, if q < p ∧ C q then (1 : Nat) else 0)
      = ∑ q ∈ Finset.range p, if C q then (1 : Nat) else 0 := by
  rw [Finset.sum_boole, Finset.sum_boole]
  have hset : (Finset.range n).filter (fun q => q < p ∧ C q)
      = (Finset.range p).filter (fun q => C q) := by
    ext q
    simp only [Finset.mem_filter, Finset.mem_range]
    exact ⟨fun hq => ⟨hq.2.1, hq.2.2⟩, fun hq => ⟨lt_of_lt_of_le hq.1 hp, hq.1, hq.2⟩⟩
  rw [hset]

theorem signCount_eq_pairCountSpec (degrees w1 w2 : List Nat) :
    signCount degrees w1 w2 = pairCountSpec degrees w1 w2 := by
  rw [signCount_eq]
  unfold pairCountSpec
  rw [Finset.card_filter, Finset.sum_product]
  refine (Finset.sum_congr rfl (fun p hp => ?houter)).symm
  have hple : p ≤ degrees.length := le_of_lt (Finset.mem_range.mp hp)
  rw [inner_range_eq degrees.length p hple
    (fun q => (0 < w1.getD p 0 ∧ (degrees.getD p 0) % 2 = 1)
      ∧ (0 < w2.getD q 0 ∧ (degrees.getD q 0) % 2 = 1))]
  refine Finset.sum_congr rfl (fun q _ => ?hinner)
  unfold oddInd
  split_ifs <;> omega

end PairCountLemmas

section OneBasisLemmas

theorem signCount_one_left (degrees w : List Nat) (n : Nat) :
    signCount degrees (List.replicate n 0) w = 0 := by
  rw [signCount_eq]
  refine Finset.sum_eq_zero (fun p _ => Finset.sum_eq_zero (fun q _ => ?hz))
  unfold oddInd
  rw [if_neg (fun hc => hc.2 (getD_replicate_zero n p)), Nat.zero_mul]

theorem signCount_one_right (degrees w : List Nat) (n : Nat) :
    signCount degrees w (List.replicate n 0) = 0 := by
  rw [signCount_eq]
  refine Finset.sum_eq_zero (fun p _ => Finset.sum_eq_zero (fun q _ => ?hz))
  have hz2 : oddInd degrees (List.replicate n 0) q = 0 := by
    unfold oddInd
    rw [if_neg (fun hc => hc.2 (getD_replicate_zero n q))]
  rw [hz2, Nat.mul_zero]

theorem zipWith_add_replicate_zero_right (w : List Nat) (n : Nat) (h : w.length = n) :
    List.zipWith (fun a b => a + b) w (List.replicate n 0) = w := by
  rw [zipWith_add_comm]
  exact zipWith_add_replicate_zero w n h

end OneBasisLemmas

section GenLemmas

theorem bool_eq_true_of_not_eq_false (b : Bool) (h : ¬ b = false) : b = true := by
  cases b
  · exact absurd rfl h
  · rfl

theorem length_gens (degrees : List Nat) : (gens degrees).length = degrees.length := by
  unfold gens
  rw [List.length_map, List.length_range]

theorem gens_getD (degrees : List Nat) (j : Nat) (h : j < degrees.length) :
    (gens degrees).getD j [] = (List.replicate degrees.length 0).set j 1 := by
  unfold gens
  rw [List.getD_eq_getElem?_getD, List.getElem?_map, List.getElem?_range h]
  rfl

end GenLemmas

/-- C1: the claim states that the basis index set contains exactly the
non-negative integer vectors w with every odd-degree exponent at most 1 and
grading at most max_degree, and in particular that for degrees (4,8,2) and
max_degree 10 the basis holds all monomials with 4a+8b+2c ≤ 10.  The code
builds the universe from the slices `range(0, max_degree, step)`, which stops
strictly below max_degree: the vector [0,0,5] has grading exactly 10, is valid
and has the right length, yet is not a member of the enumerated index set.
This theorem evaluates the code at that failing input. -/
theorem basis_misses_top_degree :
    inBasis [4, 8, 2] 10 [0, 0, 5] = false
      ∧ valid_index [4, 8, 2] [0, 0, 5] = true
      ∧ grading [4, 8, 2] [0, 0, 5] ≤ 10
      ∧ ([0, 0, 5] : List Nat).length = ([4, 8, 2] : List Nat).length := by
  decide

/-- C3: whenever product_on_basis returns a nonzero element, its coefficient is
(-1)^s with s the number of pairs (p, q) of generator positions such that
q < p, w1[p] > 0, degree p odd, w2[q] > 0 and degree q odd, and its index is
the entrywise sum of the two operand indices. -/
theorem product_sign_algorithm (degrees : List Nat) (max_deg : Nat)
    (w1 w2 w : List Nat) (c : Int)
    (h : product_on_basis degrees max_deg w1 w2 = GCAElem.term c w) :
    c = (-1 : Int) ^ pairCountSpec degrees w1 w2
      ∧ w = List.zipWith (fun a b => a + b) w1 w2 := by
  unfold product_on_basis at h
  by_cases htr : max_deg < grading degrees w1 + grading degrees w2
  · rw [if_pos htr] at h
    simp at h
  · rw [if_neg htr] at h
    by_cases hvt : valid_index degrees (List.zipWith (fun a b => a + b) w1 w2) = false
    · rw [if_pos hvt] at h
      simp at h
    · rw [if_neg hvt] at h
      injection h with hc hw
      exact ⟨by rw [← hc, signCount_eq_pairCountSpec], hw.symm⟩

/-- Witness for C3 at the spec's concrete scenario, degrees (1,2,3) and
max_degree 5: the product of [1,0,0] and [0,0,1] carries sign +1 and the
reversed product carries sign -1, both at index [1,0,1]. -/
theorem product_sign_algorithm_witness :
    product_on_basis [1, 2, 3] 5 [1, 0, 0] [0, 0, 1] = GCAElem.term 1 [1, 0, 1]
      ∧ ((1 : Int) = (-1 : Int) ^ pairCountSpec [1, 2, 3] [1, 0, 0] [0, 0, 1]
        ∧ ([1, 0, 1] : List Nat)
            = List.zipWith (fun a b => a + b) [1, 0, 0] [0, 0, 1])
      ∧ product_on_basis [1, 2, 3] 5 [0, 0, 1] [1, 0, 0] = GCAElem.term (-1) [1, 0, 1]
      ∧ ((-1 : Int) = (-1 : Int) ^ pairCountSpec [1, 2, 3] [0, 0, 1] [1, 0, 0]
        ∧ ([1, 0, 1] : List Nat)
            = List.zipWith (fun a b => a + b) [0, 0, 1] [1, 0, 0]) :=
  ⟨by decide,
   product_sign_algorithm [1, 2, 3] 5 [1, 0, 0] [0, 0, 1] [1, 0, 1] 1 (by decide),
   by decide,
   product_sign_algorithm [1, 2, 3] 5 [0, 0, 1] [1, 0, 0] [1, 0, 1] (-1) (by decide)⟩

/-- C4: for every pair of basis indices whose gradings sum beyond max_degree,
product_on_basis returns the additive zero element.  The embedding of
product_on_basis is a total function, mirroring the source, which returns a
defined value (the zero element) instead of raising on out-of-range degrees
and invalid resulting indices. -/
theorem product_degree_truncation (degrees w1 w2 : List Nat) (max_deg : Nat)
    (_hb1 : inBasis degrees max_deg w1 = true)
    (_hb2 : inBasis degrees max_deg w2 = true)
    (h : grading degrees w1 + grading degrees w2 > max_deg) :
    product_on_basis degrees max_deg w1 w2 = GCAElem.zero := by
  unfold product_on_basis
  rw [if_pos h]

/-- Witness for C4: degrees (1,2,3), max_degree 5, both operands [0,2,0] of
grading 4; the total degree 8 exceeds 5 and the product is zero. -/
theorem product_degree_truncation_witness :
    inBasis [1, 2, 3] 5 [0, 2, 0] = true
      ∧ grading [1, 2, 3] [0, 2, 0] + grading [1, 2, 3] [0, 2, 0] > 5
      ∧ product_on_basis [1, 2, 3] 5 [0, 2, 0] [0, 2, 0] = GCAElem.zero :=
  ⟨by decide, by decide,
   product_degree_truncation [1, 2, 3] [0, 2, 0] [0, 2, 0] 5
     (by decide) (by decide) (by decide)⟩

/-- C5: _valid_index returns false exactly when some generator of odd degree
carries an exponent greater than 1; consequently any such vector is excluded
from the basis index set, and any product whose entrywise sum of exponents
gives an odd-degree generator an exponent above 1 returns zero. -/
theorem valid_index_odd_nilpotency (degrees w w1 w2 : List Nat) (max_deg : Nat) :
    (valid_index degrees w = false
        ↔ ∃ i, (degrees.getD i 0) % 2 = 1 ∧ 1 < w.getD i 0)
      ∧ (∀ i, (degrees.getD i 0) % 2 = 1 → 1 < w.getD i 0 →
          inBasis degrees max_deg w = false)
      ∧ (valid_index degrees (List.zipWith (fun a b => a + b) w1 w2) = false →
          product_on_basis degrees max_deg w1 w2 = GCAElem.zero) := by
  refine ⟨valid_index_false_iff degrees w, fun i hodd hgt => ?hbasis, fun hinv => ?hprod⟩
  · have hf : valid_index degrees w = false :=
      (valid_index_false_iff degrees w).mpr ⟨i, hodd, hgt⟩
    unfold inBasis
    rw [hf]
    simp
  · unfold product_on_basis
    by_cases htr : max_deg < grading degrees w1 + grading degrees w2
    · rw [if_pos htr]
    · rw [if_neg htr, if_pos hinv]

/-- Witness for C5: degrees (1,2,3); the vector [2,0,0] squares the odd
generator x, so it is invalid and excluded, and the product of [1,0,0] with
itself (x^2 in the spec's scenario) is zero. -/
theorem valid_index_odd_nilpotency_witness :
    (valid_index [1, 2, 3] [2, 0, 0] = false
        ↔ ∃ i, (([1, 2, 3] : List Nat).getD i 0) % 2 = 1
            ∧ 1 < ([2, 0, 0] : List Nat).getD i 0)
      ∧ inBasis [1, 2, 3] 5 [2, 0, 0] = false
      ∧ product_on_basis [1, 2, 3] 5 [1, 0, 0] [1, 0, 0] = GCAElem.zero :=
  ⟨(valid_index_odd_nilpotency [1, 2, 3] [2, 0, 0] [1, 0, 0] [1, 0, 0] 5).1,
   (valid_index_odd_nilpotency [1, 2, 3] [2, 0, 0] [1, 0, 0] [1, 0, 0] 5).2.1
     0 (by decide) (by decide),
   (valid_index_odd_nilpotency [1, 2, 3] [2, 0, 0] [1, 0, 0] [1, 0, 0] 5).2.2
     (by decide)⟩

/-- C2: for every pair of basis indices w1 and w2 of the same algebra,
product_on_basis(w1, w2) equals (-1)^(grading(w1) * grading(w2)) times
product_on_basis(w2, w1). -/
theorem product_super_commutative (degrees w1 w2 : List Nat) (max_deg : Nat)
    (hb1 : inBasis degrees max_deg w1 = true)
    (hb2 : inBasis degrees max_deg w2 = true) :
    product_on_basis degrees max_deg w1 w2
      = intSmul ((-1 : Int) ^ (grading degrees w1 * grading degrees w2))
          (product_on_basis degrees max_deg w2 w1) := by
  obtain ⟨h1, hv1⟩ := inBasis_elim degrees max_deg w1 hb1
  obtain ⟨h2, hv2⟩ := inBasis_elim degrees max_deg w2 hb2
  unfold product_on_basis
  by_cases htr : max_deg < grading degrees w1 + grading degrees w2
  · rw [if_pos htr,
      if_pos (by omega : max_deg < grading degrees w2 + grading degrees w1)]
    rfl
  · rw [if_neg htr,
      if_neg (by omega : ¬ max_deg < grading degrees w2 + grading degrees w1),
      zipWith_add_comm w2 w1]
    by_cases hvt : valid_index degrees (List.zipWith (fun a b => a + b) w1 w2) = false
    · rw [if_pos hvt, if_pos hvt]
      rfl
    · rw [if_neg hvt, if_neg hvt]
      have hvt' : valid_index degrees (List.zipWith (fun a b => a + b) w1 w2) = true :=
        bool_eq_true_of_not_eq_false _ hvt
      simp only [intSmul]
      congr 1
      rw [← pow_add]
      exact neg_one_pow_congr _ _ (sign_parity degrees w1 w2 h1 h2 hv1 hv2 hvt')

/-- Witness for C2 at degrees (1,2,3), max_degree 5, with the basis indices
[1,0,0] (grading 1) and [0,0,1] (grading 3). -/
theorem product_super_commutative_witness :
    inBasis [1, 2, 3] 5 [1, 0, 0] = true
      ∧ inBasis [1, 2, 3] 5 [0, 0, 1] = true
      ∧ product_on_basis [1, 2, 3] 5 [1, 0, 0] [0, 0, 1]
          = intSmul ((-1 : Int) ^ (grading [1, 2, 3] [1, 0, 0] * grading [1, 2, 3] [0, 0, 1]))
              (product_on_basis [1, 2, 3] 5 [0, 0, 1] [1, 0, 0]) :=
  ⟨by decide, by decide,
   product_super_commutative [1, 2, 3] [1, 0, 0] [0, 0, 1] 5 (by decide) (by decide)⟩

/-- C6: the all-zero vector is the index of the multiplicative identity, and
multiplying any valid index w with grading at most max_degree by it, on either
side, yields the monomial at w with sign +1. -/
theorem one_basis_identity_law (degrees w : List Nat) (max_deg : Nat)
    (hw : w.length = degrees.length)
    (hv : valid_index degrees w = true)
    (hg : grading degrees w ≤ max_deg) :
    (∀ p, (one_basis degrees).getD p 0 = 0)
      ∧ (one_basis degrees).length = degrees.length
      ∧ product_on_basis degrees max_deg (one_basis degrees) w = GCAElem.term 1 w
      ∧ product_on_basis degrees max_deg w (one_basis degrees) = GCAElem.term 1 w := by
  have hone : one_basis degrees = List.replicate degrees.length 0 := rfl
  refine ⟨fun p => by rw [hone]; exact getD_replicate_zero _ p,
    by rw [hone]; exact List.length_replicate _ _, ?hleft, ?hright⟩
  · unfold product_on_basis
    rw [hone, zipWith_add_replicate_zero w degrees.length hw,
      grading_replicate_zero degrees degrees.length, Nat.zero_add,
      signCount_one_left degrees w degrees.length, pow_zero,
      if_neg (by omega : ¬ max_deg < grading degrees w),
      if_neg (by simp [hv] : ¬ valid_index degrees w = false)]
  · unfold product_on_basis
    rw [hone, zipWith_add_replicate_zero_right w degrees.length hw,
      grading_replicate_zero degrees degrees.length, Nat.add_zero,
      signCount_one_right degrees w degrees.length, pow_zero,
      if_neg (by omega : ¬ max_deg < grading degrees w),
      if_neg (by simp [hv] : ¬ valid_index degrees w = false)]

/-- Witness for C6 at degrees (1,2,3), max_degree 5, with the valid index
[1,2,0] whose grading is exactly the maximal degree 5. -/
theorem one_basis_identity_law_witness :
    valid_index [1, 2, 3] [1, 2, 0] = true
      ∧ grading [1, 2, 3] [1, 2, 0] ≤ 5
      ∧ product_on_basis [1, 2, 3] 5 (one_basis [1, 2, 3]) [1, 2, 0]
          = GCAElem.term 1 [1, 2, 0]
      ∧ product_on_basis [1, 2, 3] 5 [1, 2, 0] (one_basis [1, 2, 3])
          = GCAElem.term 1 [1, 2, 0] :=
  ⟨by decide, by decide,
   (one_basis_identity_law [1, 2, 3] [1, 2, 0] 5 (by decide) (by decide) (by decide)).2.2.1,
   (one_basis_identity_law [1, 2, 3] [1, 2, 0] 5 (by decide) (by decide) (by decide)).2.2.2⟩

/-- C7: for all valid basis indices w1, w2, w3 whose gradings sum to at most
max_degree, the product is associative when product_on_basis is extended
linearly: (w1 * w2) * w3 = w1 * (w2 * w3), signs included. -/
theorem product_associative (degrees w1 w2 w3 : List Nat) (max_deg : Nat)
    (hb1 : inBasis degrees max_deg w1 = true)
    (hb2 : inBasis degrees max_deg w2 = true)
    (hb3 : inBasis degrees max_deg w3 = true)
    (hdeg : grading degrees w1 + grading degrees w2 + grading degrees w3 ≤ max_deg) :
    elemMulBasis degrees max_deg (product_on_basis degrees max_deg w1 w2) w3
      = basisMulElem degrees max_deg w1 (product_on_basis degrees max_deg w2 w3) := by
  obtain ⟨h1, hv1⟩ := inBasis_elim degrees max_deg w1 hb1
  obtain ⟨h2, hv2⟩ := inBasis_elim degrees max_deg w2 hb2
  obtain ⟨h3, hv3⟩ := inBasis_elim degrees max_deg w3 hb3
  have h12 : w1.length = w2.length := by omega
  have h23 : w2.length = w3.length := by omega
  have h12d : (List.zipWith (fun a b => a + b) w1 w2).length = degrees.length :=
    length_zipWith_add w1 w2 degrees.length h1 h2
  have h23d : (List.zipWith (fun a b => a + b) w2 w3).length = degrees.length :=
    length_zipWith_add w2 w3 degrees.length h2 h3
  have h12_3 : (List.zipWith (fun a b => a + b) w1 w2).length = w3.length := by omega
  have hgd12 : grading degrees (List.zipWith (fun a b => a + b) w1 w2)
      = grading degrees w1 + grading degrees w2 := grading_zipWith_add degrees w1 w2 h12
  have hgd23 : grading degrees (List.zipWith (fun a b => a + b) w2 w3)
      = grading degrees w2 + grading degrees w3 := grading_zipWith_add degrees w2 w3 h23
  have hassoc := zipWith_add_assoc w1 w2 w3
  have hgetTot : ∀ p, (List.zipWith (fun a b => a + b)
        (List.zipWith (fun a b => a + b) w1 w2) w3).getD p 0
      = w1.getD p 0 + w2.getD p 0 + w3.getD p 0 := by
    intro p
    rw [getD_zipWith_add _ w3 h12_3 p, getD_zipWith_add w1 w2 h12 p]
  by_cases hvt : valid_index degrees
      (List.zipWith (fun a b => a + b) (List.zipWith (fun a b => a + b) w1 w2) w3) = true
  · -- the triple sum is a valid index: both sides are the signed monomial at it
    have hchar := (valid_index_iff_getD _ _).mp hvt
    have hd12 : ∀ p, ¬((degrees.getD p 0) % 2 = 1
        ∧ w1.getD p 0 ≠ 0 ∧ w2.getD p 0 ≠ 0) := by
      intro p hc
      have hb := hchar p hc.1
      rw [hgetTot p] at hb
      omega
    have hd23 : ∀ p, ¬((degrees.getD p 0) % 2 = 1
        ∧ w2.getD p 0 ≠ 0 ∧ w3.getD p 0 ≠ 0) := by
      intro p hc
      have hb := hchar p hc.1
      rw [hgetTot p] at hb
      omega
    have hv12 : valid_index degrees (List.zipWith (fun a b => a + b) w1 w2) = true := by
      refine valid_index_mono degrees _ _ (fun p => ?_) hvt
      rw [hgetTot p, getD_zipWith_add w1 w2 h12 p]
      omega
    have hv23 : valid_index degrees (List.zipWith (fun a b => a + b) w2 w3) = true := by
      refine valid_index_mono degrees _ _ (fun p => ?_) hvt
      rw [hgetTot p, getD_zipWith_add w2 w3 h23 p]
      omega
    have hvt' : valid_index degrees
        (List.zipWith (fun a b => a + b) w1 (List.zipWith (fun a b => a + b) w2 w3)) = true := by
      rw [← hassoc]
      exact hvt
    have hp12 : product_on_basis degrees max_deg w1 w2
        = GCAElem.term ((-1 : Int) ^ signCount degrees w1 w2)
            (List.zipWith (fun a b => a + b) w1 w2) := by
      unfold product_on_basis
      rw [if_neg (by omega : ¬ max_deg < grading degrees w1 + grading degrees w2),
        if_neg (by simp [hv12] : ¬ valid_index degrees
          (List.zipWith (fun a b => a + b) w1 w2) = false)]
    have hp23 : product_on_basis degrees max_deg w2 w3
        = GCAElem.term ((-1 : Int) ^ signCount degrees w2 w3)
            (List.zipWith (fun a b => a + b) w2 w3) := by
      unfold product_on_basis
      rw [if_neg (by omega : ¬ max_deg < grading degrees w2 + grading degrees w3),
        if_neg (by simp [hv23] : ¬ valid_index degrees
          (List.zipWith (fun a b => a + b) w2 w3) = false)]
    have hptotL : product_on_basis degrees max_deg
          (List.zipWith (fun a b => a + b) w1 w2) w3
        = GCAElem.term
            ((-1 : Int) ^ signCount degrees (List.zipWith (fun a b => a + b) w1 w2) w3)
            (List.zipWith (fun a b => a + b)
              (List.zipWith (fun a b => a + b) w1 w2) w3) := by
      unfold product_on_basis
      rw [if_neg (by rw [hgd12]; omega), if_neg (by simp [hvt])]
    have hptotR : product_on_basis degrees max_deg w1
          (List.zipWith (fun a b => a + b) w2 w3)
        = GCAElem.term
            ((-1 : Int) ^ signCount degrees w1 (List.zipWith (fun a b => a + b) w2 w3))
            (List.zipWith (fun a b => a + b) w1
              (List.zipWith (fun a b => a + b) w2 w3)) := by
      unfold product_on_basis
      rw [if_neg (by rw [hgd23]; omega), if_neg (by simp [hvt'])]
    rw [hp12, hp23]
    simp only [elemMulBasis, basisMulElem]
    rw [hptotL, hptotR]
    simp only [intSmul]
    rw [signCount_add_left degrees w1 w2 w3 h12 hd12,
      signCount_add_right degrees w1 w2 w3 h23 hd23, hassoc]
    congr 1
    rw [← pow_add, ← pow_add]
    exact neg_one_pow_congr _ _ (by omega)
  · -- the triple sum is invalid: both sides are zero
    have hvtf : valid_index degrees
        (List.zipWith (fun a b => a + b)
          (List.zipWith (fun a b => a + b) w1 w2) w3) = false := by
      cases hcase : valid_index degrees
          (List.zipWith (fun a b => a + b)
            (List.zipWith (fun a b => a + b) w1 w2) w3)
      · rfl
      · exact absurd hcase hvt
    have hvtf' : valid_index degrees
        (List.zipWith (fun a b => a + b) w1
          (List.zipWith (fun a b => a + b) w2 w3)) = false := by
      rw [← hassoc]
      exact hvtf
    have hL : elemMulBasis degrees max_deg
        (product_on_basis degrees max_deg w1 w2) w3 = GCAElem.zero := by
      by_cases hv12 : valid_index degrees (List.zipWith (fun a b => a + b) w1 w2) = false
      · have hp12z : product_on_basis degrees max_deg w1 w2 = GCAElem.zero := by
          unfold product_on_basis
          by_cases htr : max_deg < grading degrees w1 + grading degrees w2
          · rw [if_pos htr]
          · rw [if_neg htr, if_pos hv12]
        rw [hp12z]
        rfl
      · have hp12 : product_on_basis degrees max_deg w1 w2
            = GCAElem.term ((-1 : Int) ^ signCount degrees w1 w2)
                (List.zipWith (fun a b => a + b) w1 w2) := by
          unfold product_on_basis
          rw [if_neg (by omega : ¬ max_deg < grading degrees w1 + grading degrees w2),
            if_neg hv12]
        rw [hp12]
        simp only [elemMulBasis]
        have hz : product_on_basis degrees max_deg
            (List.zipWith (fun a b => a + b) w1 w2) w3 = GCAElem.zero := by
          unfold product_on_basis
          by_cases htr : max_deg < grading degrees
              (List.zipWith (fun a b => a + b) w1 w2) + grading degrees w3
          · rw [if_pos htr]
          · rw [if_neg htr, if_pos hvtf]
        rw [hz]
        rfl
    have hR : basisMulElem degrees max_deg w1
        (product_on_basis degrees max_deg w2 w3) = GCAElem.zero := by
      by_cases hv23 : valid_index degrees (List.zipWith (fun a b => a + b) w2 w3) = false
      · have hp23z : product_on_basis degrees max_deg w2 w3 = GCAElem.zero := by
          unfold product_on_basis
          by_cases htr : max_deg < grading degrees w2 + grading degrees w3
          · rw [if_pos htr]
          · rw [if_neg htr, if_pos hv23]
        rw [hp23z]
        rfl
      · have hp23 : product_on_basis degrees max_deg w2 w3
            = GCAElem.term ((-1 : Int) ^ signCount degrees w2 w3)
                (List.zipWith (fun a b => a + b) w2 w3) := by
          unfold product_on_basis
          rw [if_neg (by omega : ¬ max_deg < grading degrees w2 + grading degrees w3),
            if_neg hv23]
        rw [hp23]
        simp only [basisMulElem]
        have hz : product_on_basis degrees max_deg w1
            (List.zipWith (fun a b => a + b) w2 w3) = GCAElem.zero := by
          unfold product_on_basis
          by_cases htr : max_deg < grading degrees w1
              + grading degrees (List.zipWith (fun a b => a + b) w2 w3)
          · rw [if_pos htr]
          · rw [if_neg htr, if_pos hvtf']
        rw [hz]
        rfl
    rw [hL, hR]

/-- Witness for C7 at degrees (1,2,3), max_degree 6, with the three generator
indices; their gradings 1, 2 and 3 sum to exactly the maximal degree. -/
theorem product_associative_witness :
    inBasis [1, 2, 3] 6 [1, 0, 0] = true
      ∧ inBasis [1, 2, 3] 6 [0, 1, 0] = true
      ∧ inBasis [1, 2, 3] 6 [0, 0, 1] = true
      ∧ grading [1, 2, 3] [1, 0, 0] + grading [1, 2, 3] [0, 1, 0]
          + grading [1, 2, 3] [0, 0, 1] ≤ 6
      ∧ elemMulBasis [1, 2, 3] 6 (product_on_basis [1, 2, 3] 6 [1, 0, 0] [0, 1, 0]) [0, 0, 1]
          = basisMulElem [1, 2, 3] 6 [1, 0, 0]
              (product_on_basis [1, 2, 3] 6 [0, 1, 0] [0, 0, 1]) :=
  ⟨by decide, by decide, by decide, by decide,
   product_associative [1, 2, 3] [1, 0, 0] [0, 1, 0] [0, 0, 1] 6
     (by decide) (by decide) (by decide) (by decide)⟩

/-- C8 counterexample: two clauses of the claim fail on the code.  The source
never compares the lengths of explicitly given names and degrees, so
constructing with two names and three degrees succeeds; and degree positivity
is, in general, not validated either: the degree tuple (0, 2) contains the
non-positive degree 0, yet construction succeeds, because max(degrees) = 2 fits
under max_degree and gcd(degrees) = 2 is nonzero, so no line of __init__
raises.  (Only the all-zero degree tuple fails, through gcd = 0 making
range(0, max_degree, 0) raise.) -/
theorem construct_mismatched_lengths_ok :
    (GCA_construct (some ["x", "y"]) (some [1, 2, 3]) (some 5)
        = Except.ok (GCAConfig.mk ["x", "y"] [1, 2, 3] 5)
      ∧ (["x", "y"] : List String).length ≠ ([1, 2, 3] : List Int).length)
      ∧ (GCA_construct (some ["x", "y"]) (some [0, 2]) (some 2)
          = Except.ok (GCAConfig.mk ["x", "y"] [0, 2] 2)
        ∧ (0 : Int) ∈ ([0, 2] : List Int) ∧ ¬ (0 : Int) > 0) :=
  ⟨⟨rfl, by decide⟩, rfl, by decide, by decide⟩

/-- C8 amended: construction fails eagerly with an error exactly when
max_degree is unspecified, when names and degrees are both unspecified, when
max_degree < max(degrees), or when gcd(degrees) = 0 (every degree zero), in
which case the eager evaluation of range(0, max_degree, step) with step = 0 at
the basis-universe construction raises; so the positivity clause holds only in
its all-zero instance.  Mismatched lengths of names and degrees are NOT
validated and construction succeeds, and non-positive degrees are otherwise
not validated in this file (the only other construction-time consumer of the
degrees, the WeightedIntegerVectors factory, lies outside src/ and its spec
contract performs no validation); the `max_degree not in ZZ` TypeError is a
dynamic type check that cannot fire in this typed embedding. -/
theorem construct_validation_amended (ns : List String) (ds : List Int) (m mx : Int) :
    GCA_construct none none (some m)
        = Except.error ConstructionError.missingNamesAndDegrees
      ∧ GCA_construct (some ns) (some ds) none
          = Except.error ConstructionError.maxDegreeMissing
      ∧ (listMax ds = some mx → m < mx →
          GCA_construct (some ns) (some ds) (some m)
            = Except.error ConstructionError.maxDegreeTooSmall)
      ∧ (listMax ds = some mx → mx ≤ m → gcdList ds = 0 →
          GCA_construct (some ns) (some ds) (some m)
            = Except.error ConstructionError.rangeStepZero)
      ∧ (listMax ds = some mx → mx ≤ m → gcdList ds ≠ 0 →
          GCA_construct (some ns) (some ds) (some m)
            = Except.ok (GCAConfig.mk ns ds m)) := by
  have hred : GCA_construct (some ns) (some ds) (some m)
      = match listMax ds with
        | none => Except.error ConstructionError.maxOfEmpty
        | some mx =>
          if m < mx then Except.error ConstructionError.maxDegreeTooSmall
          else if gcdList ds = 0 then Except.error ConstructionError.rangeStepZero
          else Except.ok (GCAConfig.mk ns ds m) := rfl
  refine ⟨rfl, rfl, fun hmax hlt => ?hsmall, fun hmax hle hg0 => ?hstep,
    fun hmax hle hgne => ?hok⟩
  · rw [hred, hmax]
    show (if m < mx then Except.error ConstructionError.maxDegreeTooSmall
        else if gcdList ds = 0 then Except.error ConstructionError.rangeStepZero
        else Except.ok (GCAConfig.mk ns ds m))
      = Except.error ConstructionError.maxDegreeTooSmall
    rw [if_pos hlt]
  · rw [hred, hmax]
    show (if m < mx then Except.error ConstructionError.maxDegreeTooSmall
        else if gcdList ds = 0 then Except.error ConstructionError.rangeStepZero
        else Except.ok (GCAConfig.mk ns ds m))
      = Except.error ConstructionError.rangeStepZero
    rw [if_neg (by omega : ¬ m < mx), if_pos hg0]
  · rw [hred, hmax]
    show (if m < mx then Except.error ConstructionError.maxDegreeTooSmall
        else if gcdList ds = 0 then Except.error ConstructionError.rangeStepZero
        else Except.ok (GCAConfig.mk ns ds m))
      = Except.ok (GCAConfig.mk ns ds m)
    rw [if_neg (by omega : ¬ m < mx), if_neg hgne]

/-- Witness for C8 amended: every branch fires at a concrete input — the two
missing-argument errors, max_degree 2 below max(degrees) 3, the all-zero
degree tuple (0, 0) passing the max check at max_degree 0 and then raising on
the zero range step, and a successful construction whose names (2) and degrees
(3) have mismatched lengths. -/
theorem construct_validation_amended_witness :
    GCA_construct none none (some 5)
        = Except.error ConstructionError.missingNamesAndDegrees
      ∧ GCA_construct (some ["x", "y"]) (some [1, 2, 3]) none
          = Except.error ConstructionError.maxDegreeMissing
      ∧ GCA_construct (some ["x", "y"]) (some [1, 2, 3]) (some 2)
          = Except.error ConstructionError.maxDegreeTooSmall
      ∧ GCA_construct (some ["x", "y"]) (some [0, 0]) (some 0)
          = Except.error ConstructionError.rangeStepZero
      ∧ GCA_construct (some ["x", "y"]) (some [1, 2, 3]) (some 5)
          = Except.ok (GCAConfig.mk ["x", "y"] [1, 2, 3] 5) :=
  ⟨(construct_validation_amended ["x", "y"] [1, 2, 3] 5 3).1,
   (construct_validation_amended ["x", "y"] [1, 2, 3] 5 3).2.1,
   (construct_validation_amended ["x", "y"] [1, 2, 3] 2 3).2.2.1 rfl (by decide),
   (construct_validation_amended ["x", "y"] [0, 0] 0 0).2.2.2.1 rfl
     (by decide) (by decide),
   (construct_validation_amended ["x", "y"] [1, 2, 3] 5 3).2.2.2.2 rfl
     (by decide) (by decide)⟩

/-- C9 counterexample: the claim asserts that gen(i) fails for every integer i
outside [0, n), including negative i, but Python list indexing accepts negative
indices: with three generators, gen(-1) returns the last generator instead of
raising. -/
theorem gen_negative_index_ok :
    gen [4, 8, 2] (-1) = Except.ok [0, 0, 1] ∧ (-1 : Int) < 0 :=
  ⟨rfl, by decide⟩

/-- C9 amended: gen(i) returns the i-th generator (the i-th unit exponent
vector) for i in [0, n) and fails with an IndexOutOfRange error for i ≥ n and
for i < -n; for -n ≤ i < 0 it follows Python negative indexing and returns
the (n+i)-th generator instead of failing. -/
theorem gen_bounds_amended (degrees : List Nat) (i : Int) :
    (0 ≤ i → i < (degrees.length : Int) →
        gen degrees i = Except.ok ((List.replicate degrees.length 0).set i.toNat 1))
      ∧ ((degrees.length : Int) ≤ i →
          gen degrees i = Except.error PyError.indexOutOfRange)
      ∧ (i < -(degrees.length : Int) →
          gen degrees i = Except.error PyError.indexOutOfRange)
      ∧ (-(degrees.length : Int) ≤ i → i < 0 →
          gen degrees i = Except.ok
            ((List.replicate degrees.length 0).set (i + (degrees.length : Int)).toNat 1)) := by
  refine ⟨fun h0 hn => ?hc1, fun hge => ?hc2, fun hlt => ?hc3, fun hge0 hlt0 => ?hc4⟩
  · unfold gen pyGetItem
    simp only [length_gens]
    rw [if_neg (by omega : ¬ i < 0), if_pos ⟨h0, hn⟩,
      gens_getD degrees i.toNat (by omega)]
  · unfold gen pyGetItem
    simp only [length_gens]
    rw [if_neg (by omega : ¬ i < 0),
      if_neg (by omega : ¬ (0 ≤ i ∧ i < (degrees.length : Int)))]
  · unfold gen pyGetItem
    simp only [length_gens]
    rw [if_pos (by omega : i < 0),
      if_neg (by omega :
        ¬ (0 ≤ i + (degrees.length : Int) ∧ i + (degrees.length : Int) < (degrees.length : Int)))]
  · unfold gen pyGetItem
    simp only [length_gens]
    rw [if_pos (by omega : i < 0),
      if_pos (⟨by omega, by omega⟩ :
        0 ≤ i + (degrees.length : Int) ∧ i + (degrees.length : Int) < (degrees.length : Int)),
      gens_getD degrees (i + (degrees.length : Int)).toNat (by omega)]

/-- Witness for C9 amended, with three generators of degrees (4,8,2): gen 0 is
the first generator, gen 3 and gen -4 raise, and gen -3 wraps around to the
first generator. -/
theorem gen_bounds_amended_witness :
    gen [4, 8, 2] 0 = Except.ok ((List.replicate 3 0).set 0 1)
      ∧ gen [4, 8, 2] 3 = Except.error PyError.indexOutOfRange
      ∧ gen [4, 8, 2] (-4) = Except.error PyError.indexOutOfRange
      ∧ gen [4, 8, 2] (-3) = Except.ok ((List.replicate 3 0).set ((-3 : Int) + 3).toNat 1) :=
  ⟨(gen_bounds_amended [4, 8, 2] 0).1 (by decide) (by decide),
   (gen_bounds_amended [4, 8, 2] 3).2.1 (by decide),
   (gen_bounds_amended [4, 8, 2] (-4)).2.2.1 (by decide),
   (gen_bounds_amended [4, 8, 2] (-3)).2.2.2 (by decide) (by decide)⟩

/-- C10: whenever product_on_basis is nonzero it is plus or minus a single
basis monomial whose index is the entrywise sum of the operands, and
degree_on_basis of that index (always the weighted sum of its entries by the
generator degrees) equals the sum of the operand gradings. -/
theorem product_graded_homogeneous (degrees w1 w2 w : List Nat) (max_deg : Nat)
    (c : Int) (h12 : w1.length = w2.length)
    (h : product_on_basis degrees max_deg w1 w2 = GCAElem.term c w) :
    (c = 1 ∨ c = -1)
      ∧ w = List.zipWith (fun a b => a + b) w1 w2
      ∧ degree_on_basis degrees w = grading degrees w1 + grading degrees w2 := by
  unfold product_on_basis at h
  by_cases htr : max_deg < grading degrees w1 + grading degrees w2
  · rw [if_pos htr] at h
    simp at h
  · rw [if_neg htr] at h
    by_cases hvt : valid_index degrees (List.zipWith (fun a b => a + b) w1 w2) = false
    · rw [if_pos hvt] at h
      simp at h
    · rw [if_neg hvt] at h
      injection h with hc hw
      refine ⟨?hpm, hw.symm, ?hdeg⟩
      · rw [← hc]
        rcases Nat.even_or_odd (signCount degrees w1 w2) with he | ho
        · exact Or.inl (Even.neg_one_pow he)
        · exact Or.inr (Odd.neg_one_pow ho)
      · rw [← hw]
        unfold degree_on_basis
        exact grading_zipWith_add degrees w1 w2 h12

/-- Witness for C10 at degrees (1,2,3), max_degree 10 (a doctest of the
source): the product of [1,1,0] and [0,1,1] is the monomial x*y^2*z at
index [1,2,1], coefficient +1, of degree 8 = 3 + 5. -/
theorem product_graded_homogeneous_witness :
    product_on_basis [1, 2, 3] 10 [1, 1, 0] [0, 1, 1] = GCAElem.term 1 [1, 2, 1]
      ∧ (((1 : Int) = 1 ∨ (1 : Int) = -1)
        ∧ ([1, 2, 1] : List Nat) = List.zipWith (fun a b => a + b) [1, 1, 0] [0, 1, 1]
        ∧ degree_on_basis [1, 2, 3] [1, 2, 1]
            = grading [1, 2, 3] [1, 1, 0] + grading [1, 2, 3] [0, 1, 1]) :=
  ⟨by decide,
   product_graded_homogeneous [1, 2, 3] [1, 1, 0] [0, 1, 1] [1, 2, 1] 10 1
     (by decide) (by decide)⟩

end FiniteGCA
